import Mathlib

/-!
Shallow embedding of the transcript-to-catalog product matcher.

The embedded code consists of the canonical array-returning matcher
(`normalizeHebrew`, `getHebrewVariations`, `sortedProducts`, `findProduct`)
and the legacy single-record matcher (`findProductLegacy`).

Strings are modelled as `List Char`.  JavaScript's `Array.prototype.sort`
with the comparator `(a, b) => b.name.length - a.name.length` is a stable
sort by descending raw name length; stability plus sortedness under a total
preorder determine the output uniquely, so it is modelled by Mathlib's
stable `List.insertionSort` under the same relation.  `toLowerCase` is
modelled on the ASCII range (the catalog's Hebrew script has no case).
The module-level catalog `productData` is made an explicit parameter.
-/

namespace ProductVoice

abbrev Str := List Char

structure Product where
  name : Str
  id : Str
deriving DecidableEq

/-- Whitespace recognised by `String.prototype.trim`, restricted to the
common ASCII whitespace characters. -/
def isWs (c : Char) : Bool :=
  c = ' ' || c = '\t' || c = '\n' || c = '\r'

/-- `String.prototype.trim`: drop leading and trailing whitespace. -/
def jsTrim (s : Str) : Str :=
  ((s.dropWhile isWs).reverse.dropWhile isWs).reverse

/-- The Hebrew letter yod. -/
def yod : Char := 'י'

/-- `replace(/יי/g, 'י')`: scan left to right, replacing each
non-overlapping occurrence of a doubled yod by a single yod. -/
def collapseYY : Str → Str
  | [] => []
  | [c] => [c]
  | c1 :: c2 :: rest =>
    if c1 = yod ∧ c2 = yod then yod :: collapseYY rest
    else c1 :: collapseYY (c2 :: rest)

/-- The punctuation class of `replace(/[.,\/#!$%\^&\*;:\x7b\x7d=\-_\x60~()]/g, '')`.
The backtick and the braces are written via their code points. -/
def punctChars : List Char :=
  ['.', ',', '/', '#', '!', '$', '%', '^', '&', '*', ';', ':',
   Char.ofNat 123, Char.ofNat 125, '=', '-', '_', Char.ofNat 96, '~', '(', ')']

/-- Remove every punctuation character. -/
def removePunct (s : Str) : Str :=
  s.filter (fun c => !(punctChars.contains c))

/-- `toLowerCase` on one character, ASCII range. -/
def toLowerChar (c : Char) : Char :=
  if 65 ≤ c.toNat ∧ c.toNat ≤ 90 then Char.ofNat (c.toNat + 32) else c

/-- normalizeHebrew from the source: trim, collapse doubled yod, strip
punctuation, lowercase — in that order. -/
def normalizeHebrew (s : Str) : Str :=
  (removePunct (collapseYY (jsTrim s))).map toLowerChar

/-- `String.prototype.endsWith`. -/
def endsWith (s suf : Str) : Bool :=
  decide (suf <:+ s)

/-- Insertion into a JavaScript `Set`: a no-op on a member, otherwise an
append (iteration order is insertion order). -/
def addVar (l : List Str) (v : Str) : List Str :=
  if v ∈ l then l else l ++ [v]

/-- getHebrewVariations from the source.  The feminine branch fires on a
trailing "ות" (plural → singular and bare stem) or a trailing "ה"
(singular → plural); independently, the masculine branch strips a trailing
"ים" or, when it is absent, appends one. -/
def getHebrewVariations (text : Str) : List Str :=
  let v1 : List Str :=
    if endsWith text ['ו', 'ת'] then
      addVar (addVar [text] (text.dropLast.dropLast ++ ['ה'])) text.dropLast.dropLast
    else if endsWith text ['ה'] then
      addVar [text] (text.dropLast ++ ['ו', 'ת'])
    else [text]
  if endsWith text ['י', 'ם'] then
    addVar v1 text.dropLast.dropLast
  else
    addVar v1 (text ++ ['י', 'ם'])

/-- `String.prototype.includes`: does `big` contain `small` as a
contiguous substring? -/
def includes (big small : Str) : Bool :=
  decide (small <:+: big)

/-- The comparator of `sortedProducts`: descending raw name length. -/
def lenGE (a b : Product) : Prop :=
  b.name.length ≤ a.name.length

instance : DecidableRel lenGE := fun _ _ => Nat.decLe _ _

/-- The catalog view sorted by raw name length, longest first
(`[...productData].sort((a, b) => b.name.length - a.name.length)`,
a stable sort). -/
def sortedProducts (catalog : List Product) : List Product :=
  List.insertionSort lenGE catalog

/-- Phase 1: for each variation in order, `productData.find` of a record
whose normalized name equals the variation. -/
def findExact (catalog : List Product) : List Str → Option Product
  | [] => none
  | v :: vs =>
    match catalog.find? (fun p => decide (normalizeHebrew p.name = v)) with
    | some p => some p
    | none => findExact catalog vs

/-- Does some variation contain the record's normalized name? -/
def matchesPartial (vars : List Str) (p : Product) : Bool :=
  vars.any (fun v => includes v (normalizeHebrew p.name))

/-- Phase 2: first record of the length-sorted view some variation of the
transcript contains. -/
def findPartial (vars : List Str) (l : List Product) : Option Product :=
  l.find? (matchesPartial vars)

/-- Phase 3 accumulation: for each variation in order, every record whose
normalized name contains the variation. -/
def categoryList (catalog : List Product) (vars : List Str) : List Product :=
  vars.flatMap (fun v => catalog.filter (fun p => includes (normalizeHebrew p.name) v))

/-- First-occurrence deduplication, as `new Set(...)` iteration order. -/
def firstDedup (seen : List Str) : List Str → List Str
  | [] => []
  | x :: xs => if x ∈ seen then firstDedup seen xs else x :: firstDedup (x :: seen) xs

/-- Phase 3 dedup: the distinct ids in first-seen order, each mapped to the
first accumulated record carrying it. -/
def uniqueMatches (cm : List Product) : List Product :=
  (firstDedup [] (cm.map (fun p => p.id))).filterMap
    (fun i => cm.find? (fun p => p.id == i))

/-- findProduct from the source (canonical array-returning matcher): guard
on the empty transcript, then the exact, contained-phrase and category
tiers in order. -/
def findProduct (transcript : Str) (catalog : List Product) : Option (List Product) :=
  if transcript = [] then none
  else
    match findExact catalog (getHebrewVariations (normalizeHebrew transcript)) with
    | some p => some [p]
    | none =>
      match findPartial (getHebrewVariations (normalizeHebrew transcript))
          (sortedProducts catalog) with
      | some p => some [p]
      | none =>
        if uniqueMatches (categoryList catalog
            (getHebrewVariations (normalizeHebrew transcript))) = [] then none
        else some (uniqueMatches (categoryList catalog
            (getHebrewVariations (normalizeHebrew transcript))))

/-- findProduct from src/src/hooks/useProductMatcher.ts (legacy
single-record matcher): no variations, exact match on the normalized
transcript, then transcript-contains-name over the length-sorted view. -/
def findProductLegacy (transcript : Str) (catalog : List Product) : Option Product :=
  if transcript = [] then none
  else
    match catalog.find? (fun p =>
        decide (normalizeHebrew p.name = normalizeHebrew transcript)) with
    | some p => some p
    | none =>
      (sortedProducts catalog).find? (fun p =>
        includes (normalizeHebrew transcript) (normalizeHebrew p.name))

lemma mem_addVar_self (l : List Str) (v : Str) : v ∈ addVar l v := by
  unfold addVar
  split
  · assumption
  · simp

lemma addVar_cons (x v : Str) (t : List Str) : ∃ u, addVar (x :: t) v = x :: u := by
  unfold addVar
  split
  · exact ⟨t, rfl⟩
  · exact ⟨t ++ [v], rfl⟩

/-- The first variation is always the input key itself (the `Set` is seeded
with `text`). -/
lemma getHebrewVariations_cons (text : Str) :
    ∃ t, getHebrewVariations text = text :: t := by
  have key : ∀ (l : List Str) (v : Str), (∃ t, l = text :: t) →
      ∃ u, addVar l v = text :: u := by
    rintro l v ⟨t, rfl⟩
    exact addVar_cons text v t
  have inner : ∃ t,
      (if endsWith text ['ו', 'ת'] = true then
        addVar (addVar [text] (text.dropLast.dropLast ++ ['ה'])) text.dropLast.dropLast
      else if endsWith text ['ה'] = true then
        addVar [text] (text.dropLast ++ ['ו', 'ת'])
      else [text]) = text :: t := by
    by_cases h1 : endsWith text ['ו', 'ת'] = true
    · rw [if_pos h1]
      exact key _ _ (key _ _ ⟨[], rfl⟩)
    · rw [if_neg h1]
      by_cases h2 : endsWith text ['ה'] = true
      · rw [if_pos h2]
        exact key _ _ ⟨[], rfl⟩
      · rw [if_neg h2]
        exact ⟨[], rfl⟩
  unfold getHebrewVariations
  dsimp only
  by_cases h3 : endsWith text ['י', 'ם'] = true
  · rw [if_pos h3]
    exact key _ _ inner
  · rw [if_neg h3]
    exact key _ _ inner

lemma self_mem_getHebrewVariations (text : Str) :
    text ∈ getHebrewVariations text := by
  obtain ⟨t, ht⟩ := getHebrewVariations_cons text
  rw [ht]
  exact List.mem_cons_self _ _

/-- When the normalized catalog names are pairwise distinct, searching the
catalog for the normalized name of a member record finds that record. -/
lemma find?_normalized_eq (c : List Product) (R : Product)
    (hnd : (c.map fun p => normalizeHebrew p.name).Nodup) (hR : R ∈ c) :
    c.find? (fun p => decide (normalizeHebrew p.name = normalizeHebrew R.name)) =
      some R := by
  induction c with
  | nil => cases hR
  | cons x xs ih =>
    rw [List.map_cons, List.nodup_cons] at hnd
    by_cases h : normalizeHebrew x.name = normalizeHebrew R.name
    · have hxR : x = R := by
        rcases List.mem_cons.mp hR with h' | h'
        · exact h'.symm
        · exact absurd (h ▸ List.mem_map_of_mem (fun p => normalizeHebrew p.name) h')
            hnd.1
      rw [List.find?_cons_of_pos _ (by simpa using h), hxR]
    · have hR' : R ∈ xs := by
        rcases List.mem_cons.mp hR with h' | h'
        · exact absurd (congrArg (fun p => normalizeHebrew p.name) h'.symm) h
        · exact h'
      rw [List.find?_cons_of_neg _ (by simpa using h)]
      exact ih hnd.2 hR'

lemma findExact_cons (c : List Product) (v : Str) (vs : List Str) :
    findExact c (v :: vs) =
      match c.find? (fun p => decide (normalizeHebrew p.name = v)) with
      | some p => some p
      | none => findExact c vs := rfl

lemma findExact_cons_of_some (c : List Product) (v : Str) (vs : List Str)
    (p : Product)
    (hf : c.find? (fun q => decide (normalizeHebrew q.name = v)) = some p) :
    findExact c (v :: vs) = some p := by
  rw [findExact_cons, hf]

lemma findExact_cons_of_none (c : List Product) (v : Str) (vs : List Str)
    (hf : c.find? (fun q => decide (normalizeHebrew q.name = v)) = none) :
    findExact c (v :: vs) = findExact c vs := by
  rw [findExact_cons, hf]

/-- Whatever phase 1 returns is a catalog record whose normalized name is
one of the variations. -/
lemma findExact_spec (c : List Product) (vs : List Str) (q : Product)
    (h : findExact c vs = some q) :
    q ∈ c ∧ normalizeHebrew q.name ∈ vs := by
  induction vs with
  | nil => simp [findExact] at h
  | cons v vs ih =>
    rcases hf : c.find? (fun p => decide (normalizeHebrew p.name = v)) with _ | p
    · rw [findExact_cons_of_none c v vs hf] at h
      obtain ⟨hq, hv⟩ := ih h
      exact ⟨hq, List.mem_cons_of_mem _ hv⟩
    · rw [findExact_cons_of_some c v vs p hf] at h
      cases h
      refine ⟨List.mem_of_find?_eq_some hf, ?_⟩
      have := List.find?_some hf
      simp only [decide_eq_true_eq] at this
      rw [this]
      exact List.mem_cons_self _ _

/-- Phase 1 succeeds whenever some variation equals the normalized name of
some catalog record. -/
lemma findExact_isSome (c : List Product) (vs : List Str)
    (h : ∃ p, p ∈ c ∧ normalizeHebrew p.name ∈ vs) :
    ∃ q, findExact c vs = some q := by
  induction vs with
  | nil =>
    obtain ⟨p, -, hv⟩ := h
    cases hv
  | cons v vs ih =>
    rcases hf : c.find? (fun p => decide (normalizeHebrew p.name = v)) with _ | p
    · rw [findExact_cons_of_none c v vs hf]
      obtain ⟨p, hp, hv⟩ := h
      rcases List.mem_cons.mp hv with h' | h'
      · rw [List.find?_eq_none] at hf
        exact absurd (by simpa using h') (by simpa using hf p hp)
      · exact ih ⟨p, hp, h'⟩
    · exact ⟨p, findExact_cons_of_some c v vs p hf⟩

/-- Claim C2: a record's own display name, fed back as the transcript,
produces exactly that record through the exact tier, provided the
catalog's normalized names are pairwise distinct and the name is not the
empty string. -/
theorem exact_name_returns_record (c : List Product) (R : Product)
    (hR : R ∈ c) (hnd : (c.map fun p => normalizeHebrew p.name).Nodup)
    (hne : R.name ≠ []) :
    findProduct R.name c = some [R] := by
  unfold findProduct
  rw [if_neg hne]
  obtain ⟨t, ht⟩ := getHebrewVariations_cons (normalizeHebrew R.name)
  rw [ht]
  have hx : findExact c (normalizeHebrew R.name :: t) = some R := by
    rw [findExact_cons, find?_normalized_eq c R hnd hR]
  rw [hx]

/-- Witness for C2 at a concrete catalog in which the other record's
normalized name ("onion") is a proper substring of R's ("red onion"). -/
theorem exact_name_returns_record_witness :
    findProduct ("Red Onion".toList)
      [⟨"Onion".toList, "1".toList⟩, ⟨"Red Onion".toList, "2".toList⟩] =
      some [⟨"Red Onion".toList, "2".toList⟩] :=
  exact_name_returns_record
    [⟨"Onion".toList, "1".toList⟩, ⟨"Red Onion".toList, "2".toList⟩]
    ⟨"Red Onion".toList, "2".toList⟩ (by decide) (by decide) (by decide)

/-- A two-record test catalog: the first record's normalized name is a
proper substring of the second's. -/
def onionCatalog : List Product :=
  [⟨"Onion".toList, "1".toList⟩, ⟨"Red Onion".toList, "2".toList⟩]

/-- Claim C1, counterexample: a whitespace-only transcript is truthy, so
the guard does not fire; its normalized key is empty, the empty string is
a substring of every record name, and the category tier returns the whole
catalog instead of null. -/
theorem whitespace_transcript_not_null :
    findProduct (" ".toList) [⟨"בצל".toList, "1".toList⟩] =
      some [⟨"בצל".toList, "1".toList⟩] := by decide

/-- Claim C1, amended: only the literally empty transcript short-circuits
to null before any tier runs. -/
theorem empty_transcript_null (c : List Product) :
    findProduct [] c = none := rfl

/-- Claim C3: whenever some variation of the transcript exactly equals a
record's normalized name, the result is the exact tier's single-element
answer, so lower tiers contribute nothing; concretely, on the
onion catalog the transcript Onion yields only the record with id 1. -/
theorem exact_tier_priority :
    (∀ (t : Str) (c : List Product), t ≠ [] →
      (∃ p, p ∈ c ∧ normalizeHebrew p.name ∈ getHebrewVariations (normalizeHebrew t)) →
      ∃ q, findExact c (getHebrewVariations (normalizeHebrew t)) = some q ∧
        findProduct t c = some [q]) ∧
    findProduct ("Onion".toList) onionCatalog = some [⟨"Onion".toList, "1".toList⟩] := by
  constructor
  · intro t c ht hex
    obtain ⟨q, hq⟩ := findExact_isSome c _ hex
    refine ⟨q, hq, ?_⟩
    unfold findProduct
    rw [if_neg ht, hq]
  · decide

/-- Witness for C3 at the onion catalog. -/
theorem exact_tier_priority_witness :
    ∃ q, findExact onionCatalog
        (getHebrewVariations (normalizeHebrew ("Onion".toList))) = some q ∧
      findProduct ("Onion".toList) onionCatalog = some [q] :=
  exact_tier_priority.1 ("Onion".toList) onionCatalog (by decide)
    ⟨⟨"Onion".toList, "1".toList⟩, by decide, by decide⟩

/-- Claim C10: on a transcript whose normalized key equals a record's
normalized name, the legacy single-record matcher returns R exactly when
the canonical matcher returns the one-element sequence holding R. -/
theorem legacy_canonical_agree (t : Str) (c : List Product) (R : Product)
    (hnd : (c.map fun p => normalizeHebrew p.name).Nodup) (hR : R ∈ c)
    (hkey : normalizeHebrew t = normalizeHebrew R.name) :
    (findProductLegacy t c = some R ↔ findProduct t c = some [R]) := by
  by_cases ht : t = []
  · subst ht
    constructor
    · intro h
      exact absurd h (by simp [findProductLegacy])
    · intro h
      exact absurd h (by simp [findProduct])
  · have hleg : findProductLegacy t c = some R := by
      unfold findProductLegacy
      rw [if_neg ht, hkey, find?_normalized_eq c R hnd hR]
    have hcan : findProduct t c = some [R] := by
      unfold findProduct
      rw [if_neg ht]
      obtain ⟨u, hu⟩ := getHebrewVariations_cons (normalizeHebrew t)
      rw [hu]
      have hx : findExact c (normalizeHebrew t :: u) = some R := by
        apply findExact_cons_of_some
        rw [hkey]
        exact find?_normalized_eq c R hnd hR
      rw [hx]
    rw [hleg, hcan]
    simp

/-- Witness for C10: an upper-case, padded utterance of the first onion
record's name, where both matchers find the record through their exact
phases. -/
theorem legacy_canonical_agree_witness :
    (findProductLegacy ("  ONION ".toList) onionCatalog =
        some ⟨"Onion".toList, "1".toList⟩ ↔
      findProduct ("  ONION ".toList) onionCatalog =
        some [⟨"Onion".toList, "1".toList⟩]) :=
  legacy_canonical_agree ("  ONION ".toList) onionCatalog
    ⟨"Onion".toList, "1".toList⟩ (by decide) (by decide) (by decide)

lemma endsWith_iff (s suf : Str) : endsWith s suf = true ↔ suf <:+ s := by
  simp [endsWith]

/-- Claim C5, counterexample: a key ending in the feminine plural "ות"
(and not in "ים") still receives the masculine plural form key ++ "ים",
because the appending branch tests only for a trailing "ים". -/
theorem feminine_key_gets_masculine_suffix :
    endsWith ("עגבניות".toList) ['ו', 'ת'] = true ∧
    endsWith ("עגבניות".toList) ['י', 'ם'] = false ∧
    ("עגבניות".toList ++ ['י', 'ם']) ∈ getHebrewVariations ("עגבניות".toList) := by
  decide

/-- Claim C5, amended: the masculine plural form key ++ "ים" is a
variation exactly when the key does not already end with "ים"; a trailing
feminine "ות" does not suppress it. -/
theorem masculine_plural_added_iff (key : Str) :
    ((key ++ ['י', 'ם']) ∈ getHebrewVariations key) ↔
      endsWith key ['י', 'ם'] = false := by
  unfold getHebrewVariations
  dsimp only
  by_cases h3 : endsWith key ['י', 'ם'] = true
  · rw [if_pos h3, h3]
    have hsuf : ['י', 'ם'] <:+ key := (endsWith_iff _ _).mp h3
    have h1 : ¬ endsWith key ['ו', 'ת'] = true := by
      intro h
      have h' : ['ו', 'ת'] <:+ key := (endsWith_iff _ _).mp h
      rcases List.suffix_or_suffix_of_suffix h' hsuf with hc | hc
      · have : (['ו', 'ת'] : Str) = ['י', 'ם'] := hc.eq_of_length (by simp)
        simp at this
      · have : (['י', 'ם'] : Str) = ['ו', 'ת'] := hc.eq_of_length (by simp)
        simp at this
    have h2 : ¬ endsWith key ['ה'] = true := by
      intro h
      have h' : ['ה'] <:+ key := (endsWith_iff _ _).mp h
      have : (['ה'] : Str) <:+ ['י', 'ם'] :=
        List.suffix_of_suffix_length_le h' hsuf (by simp)
      simp [List.suffix_cons_iff] at this
    rw [if_neg h1, if_neg h2]
    have hne1 : key ++ ['י', 'ם'] ≠ key := by
      intro h
      have := congrArg List.length h
      simp at this
    have hne2 : key ++ ['י', 'ם'] ≠ key.dropLast.dropLast := by
      intro h
      have := congrArg List.length h
      simp [List.length_dropLast] at this
      omega
    constructor
    · intro hmem
      unfold addVar at hmem
      split at hmem <;> simp [hne1, hne2] at hmem
    · intro hf
      simp at hf
  · rw [if_neg h3]
    have h3' : endsWith key ['י', 'ם'] = false := by
      revert h3
      cases endsWith key ['י', 'ם'] <;> simp
    rw [h3']
    simp only [iff_true]
    exact mem_addVar_self _ _

lemma dropWhile_isWs_eq_self (l : Str)
    (h : l.head?.all (fun c => !(isWs c)) = true) :
    l.dropWhile isWs = l := by
  cases l with
  | nil => rfl
  | cons x xs =>
    simp only [List.head?_cons, Option.all_some, Bool.not_eq_true'] at h
    simp [List.dropWhile_cons, h]

lemma jsTrim_eq_self (l : Str)
    (h1 : l.head?.all (fun c => !(isWs c)) = true)
    (h2 : l.getLast?.all (fun c => !(isWs c)) = true) :
    jsTrim l = l := by
  unfold jsTrim
  rw [dropWhile_isWs_eq_self l h1]
  rw [dropWhile_isWs_eq_self l.reverse (by rw [List.head?_reverse]; exact h2),
    List.reverse_reverse]

lemma includes_cons (a : Char) (l sub : Str) (h : includes l sub = true) :
    includes (a :: l) sub = true := by
  simp only [includes, decide_eq_true_eq] at h ⊢
  obtain ⟨s, t, hst⟩ := h
  exact ⟨a :: s, t, by rw [List.cons_append, List.cons_append, hst]⟩

lemma collapseYY_eq_self : ∀ l : Str, includes l [yod, yod] = false → collapseYY l = l
  | [], _ => rfl
  | [_], _ => rfl
  | c1 :: c2 :: rest, h => by
    have hnot : ¬ (c1 = yod ∧ c2 = yod) := by
      rintro ⟨rfl, rfl⟩
      have : includes (yod :: yod :: rest) [yod, yod] = true := by
        simp only [includes, decide_eq_true_eq]
        exact ⟨[], rest, rfl⟩
      rw [this] at h
      cases h
    have htail : includes (c2 :: rest) [yod, yod] = false := by
      by_contra hc
      have := includes_cons c1 (c2 :: rest) [yod, yod]
        (by revert hc; cases includes (c2 :: rest) [yod, yod] <;> simp)
      rw [this] at h
      cases h
    rw [collapseYY, if_neg hnot, collapseYY_eq_self (c2 :: rest) htail]

lemma removePunct_eq_self (l : Str)
    (h : l.all (fun c => !(punctChars.contains c)) = true) :
    removePunct l = l :=
  List.filter_eq_self.mpr (List.all_eq_true.mp h)

lemma map_toLowerChar_eq_self (l : Str)
    (h : l.all (fun c => !(decide (65 ≤ c.toNat ∧ c.toNat ≤ 90))) = true) :
    l.map toLowerChar = l := by
  rw [List.map_congr_left (g := id) ?_, List.map_id]
  intro a ha
  have := List.all_eq_true.mp h a ha
  simp only [Bool.not_eq_true', decide_eq_false_iff_not] at this
  simp [toLowerChar, this]

/-- Claim C6, counterexample: stripping punctuation can expose trailing
whitespace that is only trimmed on the next pass, so normalizeHebrew is
not idempotent. -/
theorem normalizeHebrew_not_idempotent :
    normalizeHebrew (normalizeHebrew ("a ,".toList)) ≠
      normalizeHebrew ("a ,".toList) := by decide

/-- Claim C6, amended: normalizeHebrew is idempotent on every string
whose normalized form has no leading or trailing whitespace, contains no
doubled yod, no punctuation from the strip set, and no upper-case ASCII
letter.  (The last two conditions hold for every normalized output; the
first two genuinely fail, for example on a punctuation-exposed trailing
space or on a run of three yods.) -/
theorem normalizeHebrew_idempotent_of (s : Str)
    (h1 : (normalizeHebrew s).head?.all (fun c => !(isWs c)) = true)
    (h2 : (normalizeHebrew s).getLast?.all (fun c => !(isWs c)) = true)
    (h3 : includes (normalizeHebrew s) [yod, yod] = false)
    (h4 : (normalizeHebrew s).all (fun c => !(punctChars.contains c)) = true)
    (h5 : (normalizeHebrew s).all
      (fun c => !(decide (65 ≤ c.toNat ∧ c.toNat ≤ 90))) = true) :
    normalizeHebrew (normalizeHebrew s) = normalizeHebrew s := by
  show (removePunct (collapseYY (jsTrim (normalizeHebrew s)))).map toLowerChar =
    normalizeHebrew s
  rw [jsTrim_eq_self _ h1 h2, collapseYY_eq_self _ h3, removePunct_eq_self _ h4,
    map_toLowerChar_eq_self _ h5]

/-- Witness for the amended C6 on a two-word name with an upper-case
letter and a doubled yod in the raw input. -/
theorem normalizeHebrew_idempotent_of_witness :
    normalizeHebrew (normalizeHebrew ("עגבנייה Red".toList)) =
      normalizeHebrew ("עגבנייה Red".toList) :=
  normalizeHebrew_idempotent_of ("עגבנייה Red".toList) (by decide) (by decide)
    (by decide) (by decide) (by decide)

lemma findProduct_of_exact (t : Str) (c : List Product) (q : Product)
    (ht : t ≠ [])
    (he : findExact c (getHebrewVariations (normalizeHebrew t)) = some q) :
    findProduct t c = some [q] := by
  unfold findProduct
  rw [if_neg ht, he]

lemma findProduct_of_contained (t : Str) (c : List Product) (q : Product)
    (ht : t ≠ [])
    (he : findExact c (getHebrewVariations (normalizeHebrew t)) = none)
    (hp : findPartial (getHebrewVariations (normalizeHebrew t))
      (sortedProducts c) = some q) :
    findProduct t c = some [q] := by
  unfold findProduct
  rw [if_neg ht, he, hp]

lemma findProduct_of_category (t : Str) (c : List Product)
    (ht : t ≠ [])
    (he : findExact c (getHebrewVariations (normalizeHebrew t)) = none)
    (hp : findPartial (getHebrewVariations (normalizeHebrew t))
      (sortedProducts c) = none) :
    findProduct t c =
      if uniqueMatches (categoryList c (getHebrewVariations (normalizeHebrew t))) = []
      then none
      else some (uniqueMatches (categoryList c
        (getHebrewVariations (normalizeHebrew t)))) := by
  unfold findProduct
  rw [if_neg ht, he, hp]

lemma firstDedup_not_mem_seen :
    ∀ (xs seen : List Str) (y : Str), y ∈ firstDedup seen xs → y ∉ seen
  | [], _, _, hy => by cases hy
  | x :: xs, seen, y, hy => by
    rw [firstDedup] at hy
    split at hy
    · exact firstDedup_not_mem_seen xs seen y hy
    · rcases List.mem_cons.mp hy with rfl | hy'
      · assumption
      · intro hseen
        exact firstDedup_not_mem_seen xs (x :: seen) y hy'
          (List.mem_cons_of_mem _ hseen)

lemma firstDedup_nodup : ∀ (xs seen : List Str), (firstDedup seen xs).Nodup
  | [], _ => List.nodup_nil
  | x :: xs, seen => by
    rw [firstDedup]
    split
    · exact firstDedup_nodup xs seen
    · exact List.nodup_cons.mpr
        ⟨fun hx => firstDedup_not_mem_seen xs (x :: seen) x hx
          (List.mem_cons_self _ _),
         firstDedup_nodup xs (x :: seen)⟩

lemma firstDedup_subset :
    ∀ (xs seen : List Str) (y : Str), y ∈ firstDedup seen xs → y ∈ xs
  | [], _, _, hy => by cases hy
  | x :: xs, seen, y, hy => by
    rw [firstDedup] at hy
    split at hy
    · exact List.mem_cons_of_mem _ (firstDedup_subset xs seen y hy)
    · rcases List.mem_cons.mp hy with rfl | hy'
      · exact List.mem_cons_self _ _
      · exact List.mem_cons_of_mem _ (firstDedup_subset xs (x :: seen) y hy')

lemma filterMap_find_ids (cm : List Product) : ∀ d : List Str,
    (∀ i ∈ d, i ∈ cm.map (fun p => p.id)) →
    ((d.filterMap (fun i => cm.find? (fun p => p.id == i))).map (fun p => p.id)) = d
  | [], _ => rfl
  | i :: d, h => by
    obtain ⟨p, hp, hpi⟩ := List.mem_map.mp (h i (List.mem_cons_self _ _))
    obtain ⟨q, hq⟩ : ∃ q, cm.find? (fun p => p.id == i) = some q := by
      rw [← Option.isSome_iff_exists, List.find?_isSome]
      exact ⟨p, hp, by simp [hpi]⟩
    have hqid : q.id = i := by simpa using List.find?_some hq
    rw [List.filterMap_cons_some
        (f := fun j => cm.find? (fun p => p.id == j)) hq, List.map_cons, hqid,
      filterMap_find_ids cm d (fun j hj => h j (List.mem_cons_of_mem _ hj))]

/-- The identifiers of the deduplicated category result are exactly the
first-occurrence deduplication of the accumulated identifiers. -/
lemma uniqueMatches_ids (cm : List Product) :
    (uniqueMatches cm).map (fun p => p.id) =
      firstDedup [] (cm.map fun p => p.id) :=
  filterMap_find_ids cm _ (fun _ hi => firstDedup_subset _ _ _ hi)

/-- Claim C7: any non-null result of findProduct carries pairwise
distinct record ids — the first two tiers return singletons and the
category tier deduplicates by id. -/
theorem result_ids_nodup (t : Str) (c : List Product) (l : List Product)
    (h : findProduct t c = some l) : (l.map (fun p => p.id)).Nodup := by
  by_cases ht : t = []
  · rw [ht] at h
    rw [empty_transcript_null c] at h
    cases h
  · rcases he : findExact c (getHebrewVariations (normalizeHebrew t)) with _ | q
    · rcases hp : findPartial (getHebrewVariations (normalizeHebrew t))
        (sortedProducts c) with _ | q
      · rw [findProduct_of_category t c ht he hp] at h
        split at h
        · cases h
        · cases h
          rw [uniqueMatches_ids]
          exact firstDedup_nodup _ _
      · rw [findProduct_of_contained t c q ht he hp] at h
        cases h
        simp
    · rw [findProduct_of_exact t c q ht he] at h
      cases h
      simp

/-- Witness for C7 on a category-tier result with two records, reached
by the singular transcript whose plural variation occurs in both names. -/
theorem result_ids_nodup_witness :
    ((([⟨"סלט עגבניה".toList, "10".toList⟩,
        ⟨"עגבניות שרי".toList, "9".toList⟩] : List Product).map
          (fun p => p.id)).Nodup) :=
  result_ids_nodup ("עגבניה".toList)
    [⟨"עגבניות שרי".toList, "9".toList⟩, ⟨"סלט עגבניה".toList, "10".toList⟩]
    [⟨"סלט עגבניה".toList, "10".toList⟩, ⟨"עגבניות שרי".toList, "9".toList⟩]
    (by decide)

/-- Claim C9: findProduct is a total function into an option type; the
null outcome is exactly the no-input short-circuit or the case in which
all three tiers produce nothing. -/
theorem findProduct_none_iff (t : Str) (c : List Product) :
    findProduct t c = none ↔
      (t = [] ∨
        (findExact c (getHebrewVariations (normalizeHebrew t)) = none ∧
         findPartial (getHebrewVariations (normalizeHebrew t))
           (sortedProducts c) = none ∧
         uniqueMatches (categoryList c
           (getHebrewVariations (normalizeHebrew t))) = [])) := by
  by_cases ht : t = []
  · rw [ht]
    simp [empty_transcript_null c]
  · rcases he : findExact c (getHebrewVariations (normalizeHebrew t)) with _ | q
    · rcases hp : findPartial (getHebrewVariations (normalizeHebrew t))
        (sortedProducts c) with _ | q
      · rw [findProduct_of_category t c ht he hp]
        by_cases hu : uniqueMatches (categoryList c
            (getHebrewVariations (normalizeHebrew t))) = []
        · simp [hu, ht]
        · simp [hu, ht]
      · rw [findProduct_of_contained t c q ht he hp]
        simp [ht, hp]
    · rw [findProduct_of_exact t c q ht he]
      simp [ht, he]

instance : IsTotal Product lenGE :=
  ⟨fun a b => (Nat.le_total a.name.length b.name.length).symm⟩

instance : IsTrans Product lenGE :=
  ⟨fun _ _ _ hab hbc => Nat.le_trans hbc hab⟩

lemma sortedProducts_sorted (c : List Product) :
    (sortedProducts c).Pairwise lenGE :=
  List.sorted_insertionSort lenGE c

lemma sortedProducts_perm (c : List Product) : List.Perm (sortedProducts c) c :=
  List.perm_insertionSort lenGE c

/-- In a list sorted by descending raw name length, the first record
satisfying a predicate has maximal raw name length among all records
satisfying it. -/
lemma find?_max_of_pairwise (l : List Product) (P : Product → Bool)
    (p q : Product) (hsort : l.Pairwise lenGE) (hfind : l.find? P = some p)
    (hq : q ∈ l) (hPq : P q = true) :
    q.name.length ≤ p.name.length := by
  induction l with
  | nil => cases hq
  | cons x xs ih =>
    rw [List.pairwise_cons] at hsort
    by_cases hx : P x = true
    · rw [List.find?_cons_of_pos _ hx] at hfind
      cases hfind
      rcases List.mem_cons.mp hq with rfl | hq'
      · exact Nat.le_refl _
      · exact hsort.1 q hq'
    · rw [List.find?_cons_of_neg _ hx] at hfind
      rcases List.mem_cons.mp hq with rfl | hq'
      · exact absurd hPq hx
      · exact ih hsort.2 hfind hq'

/-- A two-record test catalog in which raw and normalized name lengths
order the records differently: the punctuation padding makes the first
raw name longest while its normalized name is shortest. -/
def abCatalog : List Product :=
  [⟨"ab---".toList, "A".toList⟩, ⟨"abc".toList, "B".toList⟩]

/-- Claim C4, counterexample: with no exact hit and both normalized names
("ab" and "abc") inside the variation "abcd", the matcher returns the
record with the longer RAW name ("ab---", normalized "ab"), not the one
with the longer NORMALIZED name ("abc"): the sort key is the raw length. -/
theorem partial_tier_not_normalized_order :
    findExact abCatalog (getHebrewVariations (normalizeHebrew ("abcd".toList))) =
      none ∧
    matchesPartial (getHebrewVariations (normalizeHebrew ("abcd".toList)))
      ⟨"ab---".toList, "A".toList⟩ = true ∧
    matchesPartial (getHebrewVariations (normalizeHebrew ("abcd".toList)))
      ⟨"abc".toList, "B".toList⟩ = true ∧
    (normalizeHebrew ("ab---".toList)).length <
      (normalizeHebrew ("abc".toList)).length ∧
    findProduct ("abcd".toList) abCatalog =
      some [⟨"ab---".toList, "A".toList⟩] := by decide

/-- Claim C4, amended: the contained-phrase tier examines records in
descending order of RAW display-name length (stable), so for a transcript
with no exact-tier hit the returned record is a matching record of
maximal raw name length; a matching name never shadows a raw-longer
matching name. -/
theorem partial_tier_longest_raw (t : Str) (c : List Product) (q : Product)
    (ht : t ≠ [])
    (he : findExact c (getHebrewVariations (normalizeHebrew t)) = none)
    (hq : q ∈ c)
    (hqm : matchesPartial (getHebrewVariations (normalizeHebrew t)) q = true) :
    ∃ p, p ∈ c ∧ matchesPartial (getHebrewVariations (normalizeHebrew t)) p = true ∧
      q.name.length ≤ p.name.length ∧ findProduct t c = some [p] := by
  have hqs : q ∈ sortedProducts c := (sortedProducts_perm c).mem_iff.mpr hq
  obtain ⟨p, hp⟩ : ∃ p, findPartial (getHebrewVariations (normalizeHebrew t))
      (sortedProducts c) = some p := by
    rw [findPartial, ← Option.isSome_iff_exists, List.find?_isSome]
    exact ⟨q, hqs, hqm⟩
  have hpmem : p ∈ c :=
    (sortedProducts_perm c).mem_iff.mp (List.mem_of_find?_eq_some hp)
  have hpm := List.find?_some hp
  have hlen := find?_max_of_pairwise (sortedProducts c) _ p q
    (sortedProducts_sorted c) hp hqs hqm
  exact ⟨p, hpmem, hpm, hlen, findProduct_of_contained t c p ht he hp⟩

/-- Witness for the amended C4: in the onion catalog, the transcript
"I want a red onion" matches both records in the contained-phrase tier
and the raw-longer "Red Onion" wins. -/
theorem partial_tier_longest_raw_witness :
    ∃ p, p ∈ onionCatalog ∧
      matchesPartial (getHebrewVariations
        (normalizeHebrew ("I want a red onion".toList))) p = true ∧
      (("Onion".toList : Str)).length ≤ p.name.length ∧
      findProduct ("I want a red onion".toList) onionCatalog = some [p] :=
  partial_tier_longest_raw ("I want a red onion".toList) onionCatalog
    ⟨"Onion".toList, "1".toList⟩ (by decide) (by decide) (by decide) (by decide)

lemma mem_firstDedup : ∀ (xs seen : List Str) (y : Str),
    y ∈ xs → y ∉ seen → y ∈ firstDedup seen xs
  | [], _, _, hy, _ => absurd hy (List.not_mem_nil _)
  | x :: xs, seen, y, hy, hn => by
    rw [firstDedup]
    by_cases hyx : y = x
    · subst hyx
      rw [if_neg hn]
      exact List.mem_cons_self _ _
    · have hy' : y ∈ xs := by
        rcases List.mem_cons.mp hy with h | h
        · exact absurd h hyx
        · exact h
      split
      · exact mem_firstDedup xs seen y hy' hn
      · refine List.mem_cons_of_mem _ (mem_firstDedup xs (x :: seen) y hy' ?_)
        intro hc
        rcases List.mem_cons.mp hc with h | h
        · exact hyx h
        · exact hn h

/-- A record of the accumulated category list that is the only carrier of
its id survives deduplication. -/
lemma mem_uniqueMatches (cm : List Product) (r : Product) (hr : r ∈ cm)
    (huniq : ∀ p ∈ cm, p.id = r.id → p = r) :
    r ∈ uniqueMatches cm := by
  have hid : r.id ∈ firstDedup [] (cm.map fun p => p.id) :=
    mem_firstDedup _ [] r.id (List.mem_map_of_mem _ hr) (List.not_mem_nil _)
  obtain ⟨p, hp⟩ : ∃ p, cm.find? (fun p => p.id == r.id) = some p := by
    rw [← Option.isSome_iff_exists, List.find?_isSome]
    exact ⟨r, hr, by simp⟩
  have hpr : p = r :=
    huniq p (List.mem_of_find?_eq_some hp) (by simpa using List.find?_some hp)
  rw [uniqueMatches, List.mem_filterMap]
  exact ⟨r.id, hid, by rw [hp, hpr]⟩

/-- Claim C8: with no exact hit and no contained-phrase hit, a record
whose normalized name contains one of the variations is returned by the
category tier (unique ids assumed, per the catalog invariant);
concretely, the singular transcript reaches the plural one-record catalog
and returns it. -/
theorem category_tier_reaches :
    (∀ (t : Str) (c : List Product) (r : Product), t ≠ [] →
      findExact c (getHebrewVariations (normalizeHebrew t)) = none →
      findPartial (getHebrewVariations (normalizeHebrew t))
        (sortedProducts c) = none →
      r ∈ c → (c.map (fun p => p.id)).Nodup →
      (∃ v ∈ getHebrewVariations (normalizeHebrew t),
        includes (normalizeHebrew r.name) v = true) →
      ∃ l, findProduct t c = some l ∧ r ∈ l) ∧
    findProduct ("עגבניה".toList) [⟨"עגבניות שרי".toList, "9".toList⟩] =
      some [⟨"עגבניות שרי".toList, "9".toList⟩] := by
  constructor
  · rintro t c r ht he hp hr hnd ⟨v, hv, hincl⟩
    have hrcm : r ∈ categoryList c (getHebrewVariations (normalizeHebrew t)) := by
      rw [categoryList, List.mem_flatMap]
      exact ⟨v, hv, List.mem_filter.mpr ⟨hr, hincl⟩⟩
    have hsub : ∀ p ∈ categoryList c (getHebrewVariations (normalizeHebrew t)),
        p ∈ c := by
      intro p hpc
      rw [categoryList, List.mem_flatMap] at hpc
      obtain ⟨v', -, hpf⟩ := hpc
      exact (List.mem_filter.mp hpf).1
    have hrm : r ∈ uniqueMatches (categoryList c
        (getHebrewVariations (normalizeHebrew t))) := by
      refine mem_uniqueMatches _ r hrcm ?_
      intro p hpc hpid
      exact List.inj_on_of_nodup_map hnd (hsub p hpc) hr hpid
    have hne : uniqueMatches (categoryList c
        (getHebrewVariations (normalizeHebrew t))) ≠ [] := by
      intro h0
      rw [h0] at hrm
      cases hrm
    refine ⟨_, ?_, hrm⟩
    rw [findProduct_of_category t c ht he hp, if_neg hne]
  · decide

/-- Witness for C8 at the one-record plural catalog and the singular
transcript. -/
theorem category_tier_reaches_witness :
    ∃ l, findProduct ("עגבניה".toList)
        [⟨"עגבניות שרי".toList, "9".toList⟩] = some l ∧
      (⟨"עגבניות שרי".toList, "9".toList⟩ : Product) ∈ l :=
  category_tier_reaches.1 ("עגבניה".toList)
    [⟨"עגבניות שרי".toList, "9".toList⟩] ⟨"עגבניות שרי".toList, "9".toList⟩
    (by decide) (by decide) (by decide) (by decide) (by decide)
    ⟨"עגבניות".toList, by decide, by decide⟩

example : normalizeHebrew ("  Mega-Gadget  ".toList) = ("megagadget".toList) := by decide

example :
    getHebrewVariations ("עגבניות".toList) =
      [("עגבניות".toList), ("עגבניה".toList), ("עגבני".toList), ("עגבניותים".toList)] := by
  decide

example :
    findProduct ("Onion".toList)
      [⟨"Onion".toList, "1".toList⟩, ⟨"Red Onion".toList, "2".toList⟩] =
      some [⟨"Onion".toList, "1".toList⟩] := by decide

end ProductVoice
